import Mathlib

/-!
Shallow embedding of the brigadier execution engine
(`src/graph.ts`, `src/retry.ts`, `src/onerror.ts`, and the earlier
retry implementation without backoff), together with proofs about the
dependency-graph scheduler, the retry/backoff combinator and the
error-notification combinator.

Conventions of the embedding:
* A runnable's observable behaviour is success or failure with a reason;
  we model one invocation's outcome as `Option String`
  (`none` = the promise resolves, `some e` = it rejects with reason `e`).
* JavaScript recursion depth is modelled by a `fuel : Nat` argument:
  a result of `none` for a fuelled function means the computation did not
  complete within that recursion depth (for `isReachable`, growing the
  stack); a result of `some r` is the value the JS function returns.
* The `Promise.race` nondeterminism of the scheduler is modelled by an
  oracle `choose : List String → Nat` that picks which in-flight item
  settles first (taken modulo the number of in-flight items).
-/

namespace Brigadier

/-- The `enum QueuedRunnableStatus` from `graph.ts`. -/
inductive Status where
  | NotStarted
  | InProgress
  | Completed
  | Failed
deriving DecidableEq

/-- The `interface QueuedRunnable` from `graph.ts`. The wrapped runnable
(`value`) is kept outside the record: the scheduler consults it only
through an outcome map `String → Option String` keyed by item id. -/
structure QueuedRunnable where
  id : String
  dependsOn : List String
  status : Status
deriving DecidableEq

/-- The method `private item(id)`: `this.items.find((item) => item.id === id)`. -/
def findItem (items : List QueuedRunnable) (id : String) : Option QueuedRunnable :=
  items.find? (fun it => it.id == id)

/-- The `Map<string, boolean>` reachability cache, as an association list;
`cacheSet` prepends and `cacheGet` takes the first hit, which matches
`Map.set` overwrite semantics. -/
def Cache := List (String × Bool)

def cacheGet (c : Cache) (k : String) : Option Bool :=
  (List.find? (fun p => p.1 == k) c).map (fun p => p.2)

def cacheSet (c : Cache) (k : String) (v : Bool) : Cache :=
  (k, v) :: c

mutual

/-- The method `private isReachable(item, reachableCache)` from `graph.ts`, with the
JS call stack depth made explicit as `fuel` (a `none` result means the
recursion exceeded that depth — in JS, unbounded stack growth). The cache
is threaded through and, exactly as in the source, an item's entry is
written only *after* the traversal of its dependencies has completed. -/
def isReachable (items : List QueuedRunnable) :
    Nat → Option QueuedRunnable → Cache → Option (Bool × Cache)
  | 0, _, _ => none
  | _ + 1, none, cache => some (false, cache)
  | fuel + 1, some it, cache =>
    if it.dependsOn = [] then
      some (true, cacheSet cache it.id true)
    else
      match cacheGet cache it.id with
      | some b => some (b, cache)
      | none =>
        match depsEvery items fuel it.dependsOn cache with
        | none => none
        | some (r, cache2) => some (r, cacheSet cache2 it.id r)
termination_by fuel _ _ => (fuel, 0)

/-- The call `item.dependsOn.every((id) => this.isReachable(this.item(id), cache))`:
short-circuiting `every`, threading the cache. -/
def depsEvery (items : List QueuedRunnable) :
    Nat → List String → Cache → Option (Bool × Cache)
  | _, [], cache => some (true, cache)
  | fuel, d :: rest, cache =>
    match isReachable items fuel (findItem items d) cache with
    | none => none
    | some (false, cache2) => some (false, cache2)
    | some (true, cache2) => depsEvery items fuel rest cache2
termination_by fuel ds _ => (fuel, ds.length + 1)

end

/-- The call `this.items.every((item) => this.isReachable(item, reachableCache))`:
iterate over the items, sharing one cache. -/
def allReachableAux (items : List QueuedRunnable) (fuel : Nat) :
    List QueuedRunnable → Cache → Option (Bool × Cache)
  | [], cache => some (true, cache)
  | it :: rest, cache =>
    match isReachable items fuel (some it) cache with
    | none => none
    | some (false, cache2) => some (false, cache2)
    | some (true, cache2) => allReachableAux items fuel rest cache2

/-- The method `private allReachable()` from `graph.ts`. -/
def allReachable (items : List QueuedRunnable) (fuel : Nat) : Option Bool :=
  (allReachableAux items fuel items []).map (fun p => p.1)

/-- The method `private allDone()` from `graph.ts`. -/
def allDone (items : List QueuedRunnable) : Bool :=
  items.all (fun it => it.status == Status.Completed || it.status == Status.Failed)

/-- The method `private areDependenciesSatisfied(runnable)`:
`runnable.dependsOn.every((dep) => this.item(dep)?.status === Completed)`. -/
def areDependenciesSatisfied (items : List QueuedRunnable) (r : QueuedRunnable) : Bool :=
  r.dependsOn.all (fun dep =>
    match findItem items dep with
    | some it => it.status == Status.Completed
    | none => false)

/-- The method `private isReady(runnable)` from `graph.ts`. -/
def isReady (items : List QueuedRunnable) (r : QueuedRunnable) : Bool :=
  r.status == Status.NotStarted && areDependenciesSatisfied items r

/-- The method `private readyItems()` from `graph.ts`. -/
def readyItems (items : List QueuedRunnable) : List QueuedRunnable :=
  items.filter (fun it => isReady items it)

/-- The status mutation `r.status = st`; the items reside in the graph's
list, so the update rewrites the entry with that id. -/
def setStatus (items : List QueuedRunnable) (id : String) (st : Status) :
    List QueuedRunnable :=
  items.map (fun it => if it.id == id then { it with status := st } else it)

/-- The `for (const r of ready) { r.status = InProgress; ... }` loop. -/
def startAll (items : List QueuedRunnable) (ready : List QueuedRunnable) :
    List QueuedRunnable :=
  ready.foldl (fun acc r => setStatus acc r.id Status.InProgress) items

/-- The scheduler state inside `DependencyGraph.run`: the item list with
its mutable statuses, the `inProgress` map (as its ordered key list), and
a ledger of every item whose runnable has been started, in start order. -/
structure SchedState where
  items : List QueuedRunnable
  inProgress : List String
  started : List String
deriving DecidableEq

/-- The ways `DependencyGraph.run` can leave its loop: return (success),
`throw` the string built from the failed item's id, or — when
`Promise.race` is applied to an empty collection — never settle. The
pre-check failure `throw new Error("not all items in the graph are
reachable")` is `graphInvalid`. -/
inductive RunOutcome where
  | success
  | graphInvalid
  | itemFailed (msg : String)
  | raceHang
deriving DecidableEq

/-- The ids of the ready items, in declaration order — these are the
keys added to `inProgress` (and the runnables invoked) this iteration. -/
def readyIds (s : SchedState) : List String :=
  (readyItems s.items).map (fun r => r.id)

/-- The keys of the `inProgress` map at the `Promise.race` call. -/
def raceList (s : SchedState) : List String :=
  s.inProgress ++ readyIds s

/-- The id of the in-flight item the race settles on, as picked by the
oracle `choose`. -/
def racedId (choose : List String → Nat) (s : SchedState) : String :=
  (raceList s).getD (choose (raceList s) % (raceList s).length) ""

/-- One iteration of the `for (;;)` loop in `DependencyGraph.run`:
check `allDone`; start every ready item; `Promise.race` the in-flight
items (the oracle `choose` picks which settles first); record the raced
item's outcome (the helper `run` function's try/catch sets `Completed`
or `Failed` and swallows the reason); on failure throw
`` finished.id + " failed" ``. Returns the outcome (if the loop ends
here) and the state after the iteration. -/
def stepOnce (outcome : String → Option String) (choose : List String → Nat)
    (s : SchedState) : Option RunOutcome × SchedState :=
  if allDone s.items then (some RunOutcome.success, s)
  else
    let items1 := startAll s.items (readyItems s.items)
    let started1 := s.started ++ readyIds s
    if raceList s = [] then
      (some RunOutcome.raceHang, ⟨items1, raceList s, started1⟩)
    else
      let fid := racedId choose s
      match outcome fid with
      | some _ =>
        (some (RunOutcome.itemFailed (fid ++ " failed")),
         ⟨setStatus items1 fid Status.Failed,
          (raceList s).filter (fun i => i != fid), started1⟩)
      | none =>
        (none,
         ⟨setStatus items1 fid Status.Completed,
          (raceList s).filter (fun i => i != fid), started1⟩)

/-- The `for (;;)` loop, bounded by `fuel` iterations (`none` = the
budget did not cover the run; each iteration settles one in-flight item,
so `items.length + 1` iterations always suffice). -/
def runLoop (outcome : String → Option String) (choose : List String → Nat) :
    Nat → SchedState → Option (RunOutcome × SchedState)
  | 0, _ => none
  | fuel + 1, s =>
    match stepOnce outcome choose s with
    | (some r, s1) => some (r, s1)
    | (none, s1) => runLoop outcome choose fuel s1

/-- The method `DependencyGraph.run()`: the reachability pre-check, then the loop.
`reachFuel` bounds the recursion depth of the pre-check and `loopFuel`
the loop iterations; `none` means the run did not complete within those
budgets (for the pre-check: unbounded recursion). -/
def runGraph (outcome : String → Option String) (choose : List String → Nat)
    (items : List QueuedRunnable) (reachFuel loopFuel : Nat) :
    Option (RunOutcome × SchedState) :=
  match allReachable items reachFuel with
  | none => none
  | some false => some (RunOutcome.graphInvalid, ⟨items, [], []⟩)
  | some true => runLoop outcome choose loopFuel ⟨items, [], []⟩

/-- A fresh graph item as built by `GraphBuilder.build` /
`toQueuedRunnable`: status `NotStarted`. -/
def mkItem (id : String) (deps : List String) : QueuedRunnable :=
  ⟨id, deps, Status.NotStarted⟩

end Brigadier

namespace Brigadier

/-! ### Retry combinator (`retry.ts`), and the earlier implementation
without backoff (the unnamed source file). -/

/-- The `interface Backoff` from `retry.ts`. JS numbers used here are
modelled as rationals. -/
structure Backoff where
  baseSeconds : Rat
  factor : Rat
  maxSeconds : Rat
deriving DecidableEq

/-- The `const NO_BACKOFF` from `retry.ts`. -/
def NO_BACKOFF : Backoff := ⟨0, 1, 3600⟩

/-- The `Retry` class fields (`retry.ts`): the wrapped runnable is
modelled by the map from attempt number (1-based) to that invocation's
outcome. -/
structure Retry where
  impl : Nat → Option String
  maxAttempts : Int
  backoff : Backoff

/-- The `Retry` constructor: `if (maxAttempts < 1) throw new
Error("maxAttempts must be positive")`. -/
def mkRetry (impl : Nat → Option String) (maxAttempts : Int) (backoff : Backoff) :
    Except String Retry :=
  if maxAttempts < 1 then Except.error "maxAttempts must be positive"
  else Except.ok ⟨impl, maxAttempts, backoff⟩

/-- The method `Retry.withBackoff(backoff)`: `new Retry(this.impl, this.maxAttempts,
backoff)` (the constructor check runs again). -/
def withBackoff (r : Retry) (backoff : Backoff) : Except String Retry :=
  mkRetry r.impl r.maxAttempts backoff

/-- What one `Retry.run()` call did: how many times the wrapped runnable
was invoked, the successive `sleep` delays in seconds (the source calls
`sleep(nextBackoffSeconds * 1000)`; we record `nextBackoffSeconds`), and
the settled result (`none` = resolved, `some e` = rejected with `e`). -/
structure RetryTrace where
  invocations : Nat
  delaysSeconds : List Rat
  result : Option String
deriving DecidableEq

/-- The `while (attemptCount < this.maxAttempts)` loop of `Retry.run()`
in `retry.ts`. `remaining` is `maxAttempts - attemptCount` (so the loop
guard is `0 < remaining`), `made` is `attemptCount`, and `next` is
`nextBackoffSeconds`. On a caught failure, `attemptCount >= maxAttempts`
is `remaining = 1`; otherwise the loop sleeps `next` seconds and updates
`next` to `min(next * factor, maxSeconds)`. Falling out of the loop
(possible only if `maxAttempts ≤ 0`) resolves, as the async function
body just ends. -/
def retryGo (impl : Nat → Option String) (b : Backoff) :
    Nat → Nat → Rat → RetryTrace
  | 0, made, _ => ⟨made, [], none⟩
  | remaining + 1, made, next =>
    match impl (made + 1) with
    | none => ⟨made + 1, [], none⟩
    | some e =>
      if remaining = 0 then ⟨made + 1, [], some e⟩
      else
        let rest := retryGo impl b remaining (made + 1) (min (next * b.factor) b.maxSeconds)
        ⟨rest.invocations, next :: rest.delaysSeconds, rest.result⟩

/-- The method `Retry.run()` from `retry.ts`: `attemptCount = 0`,
`nextBackoffSeconds = this.backoff.baseSeconds`, then the loop. -/
def retryRun (impl : Nat → Option String) (maxAttempts : Int) (b : Backoff) :
    RetryTrace :=
  retryGo impl b maxAttempts.toNat 0 b.baseSeconds

/-- The `while` loop of the earlier `Retry.run()` without backoff (the
unnamed source file): identical control flow, no sleeps. Returns
(invocations, result). -/
def retryNoBackoffGo (impl : Nat → Option String) :
    Nat → Nat → Nat × Option String
  | 0, made => (made, none)
  | remaining + 1, made =>
    match impl (made + 1) with
    | none => (made + 1, none)
    | some e =>
      if remaining = 0 then (made + 1, some e)
      else retryNoBackoffGo impl remaining (made + 1)

/-- The method `Retry.run()` of the implementation without backoff. -/
def retryNoBackoffRun (impl : Nat → Option String) (maxAttempts : Int) :
    Nat × Option String :=
  retryNoBackoffGo impl maxAttempts.toNat 0

/-! ### Error-notification combinator (`onerror.ts`). -/

/-- Observable events of the composite built by `ErrorNotifier.onError`. -/
inductive NotifyEvent where
  | ranMain
  | ranHandler
deriving DecidableEq

/-- The `run()` of the object returned by `ErrorNotifier.onError(handler)`:
`try { await main.run() } catch (e) { await handler.run(); throw e }`.
`main` and `handler` are each one invocation's outcome. Returns the
ordered list of runnables that were invoked and the composite result. -/
def onErrorRun (main : Option String) (handler : Option String) :
    List NotifyEvent × Option String :=
  match main with
  | none => ([NotifyEvent.ranMain], none)
  | some e =>
    match handler with
    | none => ([NotifyEvent.ranMain, NotifyEvent.ranHandler], some e)
    | some h => ([NotifyEvent.ranMain, NotifyEvent.ranHandler], some h)

/-! ### Derived notions and concrete inputs used by the theorems. -/

/-- The status recorded for id `id` (`this.item(id)?.status`). -/
def statusOf (items : List QueuedRunnable) (id : String) : Option Status :=
  (findItem items id).map (fun it => it.status)

/-- Consistency of a scheduler state: item ids are unique (they are the
keys of the object the graph was built from), every key of the
`inProgress` map is an item whose status is `InProgress`, and every such
key was started. -/
def WFState (s : SchedState) : Prop :=
  (s.items.map QueuedRunnable.id).Nodup ∧
  (∀ id ∈ s.inProgress, statusOf s.items id = some Status.InProgress)

/-- The reachability cache does not (wrongly) record `badId` as
reachable. -/
def BadFree (badId : String) (c : Cache) : Prop := cacheGet c badId ≠ some true

/-- No fuel budget completes `run()` on this graph (for `isReachable`,
unbounded recursion — in JS, unbounded stack growth). -/
def runNeverCompletes (items : List QueuedRunnable) : Prop :=
  ∀ (o : String → Option String) (ch : List String → Nat) (rf lf : Nat),
    runGraph o ch items rf lf = none

/-- The one-item graph whose item depends on itself. -/
def selfLoopItem : QueuedRunnable := mkItem "a" ["a"]

/-- The graph `{ a: dependsOn("a") }`. -/
def selfLoopItems : List QueuedRunnable := [selfLoopItem]

/-- The graph `{ b: dependsOn("b"), a: dependsOn("missing") }`: it has a
missing dependency id, but the pre-check reaches the cycle at `b` first. -/
def cexC2Items : List QueuedRunnable := [mkItem "b" ["b"], mkItem "a" ["missing"]]

/-- The graph `{ a: {}, b: dependsOn("a"), c: dependsOn("a") }`: two
items share the dependency `a`. -/
def sharedDepItems : List QueuedRunnable :=
  [mkItem "a" [], mkItem "b" ["a"], mkItem "c" ["a"]]

/-- Outcomes where item `a`'s runnable rejects with reason `"boom"` and
every other runnable resolves. -/
def failAOutcome : String → Option String :=
  fun id => if id = "a" then some "boom" else none

/-- A race oracle (any fixed one; races over one item cannot differ). -/
def firstChoose : List String → Nat := fun _ => 0

/-- A wrapped runnable that fails on every attempt. -/
def failAll : Nat → Option String := fun _ => some "fail"

/-- A wrapped runnable that fails on attempts 1 and 2 and succeeds on
attempt 3. -/
def succeedOnThird : Nat → Option String :=
  fun j => if j < 3 then some "fail" else none

/-- The backoff of the spec's worked example: base 50 ms, factor 2,
cap 200 ms (in seconds: 1/20, 2, 1/5). -/
def exampleBackoff : Backoff := ⟨1/20, 2, 1/5⟩

end Brigadier

namespace Brigadier

/-! ### Lemmas about the retry loop. -/

/-- Unfolding: an attempt that succeeds ends the loop. -/
theorem retryGo_success_eq (impl : Nat → Option String) (b : Backoff)
    (rem made : Nat) (next : Rat) (he : impl (made + 1) = none) :
    retryGo impl b (rem + 1) made next = ⟨made + 1, [], none⟩ := by
  simp [retryGo, he]

/-- Unfolding: a failure on the last permitted attempt re-raises it. -/
theorem retryGo_last_fail_eq (impl : Nat → Option String) (b : Backoff)
    (made : Nat) (next : Rat) (e : String) (he : impl (made + 1) = some e) :
    retryGo impl b 1 made next = ⟨made + 1, [], some e⟩ := by
  simp [retryGo, he]

/-- Unfolding: a failure with attempts left sleeps `next` seconds and
continues with the escalated delay. -/
theorem retryGo_fail_step_eq (impl : Nat → Option String) (b : Backoff)
    (rem made : Nat) (next : Rat) (e : String)
    (he : impl (made + 1) = some e) (hrem : rem ≠ 0) :
    retryGo impl b (rem + 1) made next =
      ⟨(retryGo impl b rem (made + 1) (min (next * b.factor) b.maxSeconds)).invocations,
       next :: (retryGo impl b rem (made + 1)
          (min (next * b.factor) b.maxSeconds)).delaysSeconds,
       (retryGo impl b rem (made + 1) (min (next * b.factor) b.maxSeconds)).result⟩ := by
  simp [retryGo, he, hrem]

/-- If the wrapped runnable fails on attempts `made+1 .. made+k-1` and
first succeeds on attempt `made+k ≤ made+remaining`, the loop makes
exactly `k` further invocations and resolves. -/
theorem retryGo_succeeds (impl : Nat → Option String) (b : Backoff) :
    ∀ k remaining made next, 1 ≤ k → k ≤ remaining →
    (∀ j, made < j → j < made + k → (impl j).isSome) →
    impl (made + k) = none →
    (retryGo impl b remaining made next).invocations = made + k ∧
    (retryGo impl b remaining made next).result = none := by
  intro k
  induction k with
  | zero => intro remaining made next h1; omega
  | succ k ih =>
    intro remaining made next _ hk hfail hsucc
    obtain ⟨rem, rfl⟩ : ∃ rem, remaining = rem + 1 := ⟨remaining - 1, by omega⟩
    by_cases hk0 : k = 0
    · subst hk0
      rw [retryGo_success_eq impl b rem made next (by simpa using hsucc)]
      simp
    · have h1 : (impl (made + 1)).isSome := hfail (made + 1) (by omega) (by omega)
      obtain ⟨e, he⟩ := Option.isSome_iff_exists.mp h1
      have hrem : rem ≠ 0 := by omega
      rw [retryGo_fail_step_eq impl b rem made next e he hrem]
      have := ih rem (made + 1) (min (next * b.factor) b.maxSeconds)
        (by omega) (by omega)
        (fun j hj hj2 => hfail j (by omega) (by omega))
        (by have h : made + 1 + k = made + (k + 1) := by omega
            rw [h]; exact hsucc)
      refine ⟨?_, this.2⟩
      have h : made + 1 + k = made + (k + 1) := by omega
      rw [← h]; exact this.1

/-- If the wrapped runnable fails on every attempt up to
`made + remaining`, the loop makes exactly `remaining` further
invocations and re-raises the last attempt's failure verbatim. -/
theorem retryGo_all_fail (impl : Nat → Option String) (b : Backoff) :
    ∀ remaining made next, 1 ≤ remaining →
    (∀ j, made < j → j ≤ made + remaining → (impl j).isSome) →
    (retryGo impl b remaining made next).invocations = made + remaining ∧
    (retryGo impl b remaining made next).result = impl (made + remaining) := by
  intro remaining
  induction remaining with
  | zero => intro made next h1; omega
  | succ rem ih =>
    intro made next _ hfail
    obtain ⟨e, he⟩ := Option.isSome_iff_exists.mp
      (hfail (made + 1) (by omega) (by omega))
    by_cases hrem : rem = 0
    · subst hrem
      rw [retryGo_last_fail_eq impl b made next e he]
      exact ⟨rfl, by simp [he]⟩
    · rw [retryGo_fail_step_eq impl b rem made next e he hrem]
      have := ih (made + 1) (min (next * b.factor) b.maxSeconds)
        (by omega) (fun j hj hj2 => hfail j (by omega) (by omega))
      refine ⟨?_, ?_⟩
      · have h : made + 1 + rem = made + (rem + 1) := by omega
        rw [← h]; exact this.1
      · rw [show made + (rem + 1) = made + 1 + rem by omega]
        exact this.2

/-- The successive sleep delays start at `next` and then follow the
recurrence `d' = min (d * factor) maxSeconds`. -/
theorem retryGo_delay_chain (impl : Nat → Option String) (b : Backoff) :
    ∀ remaining made next,
    ((retryGo impl b remaining made next).delaysSeconds = [] ∨
      (retryGo impl b remaining made next).delaysSeconds.head? = some next) ∧
    List.Chain' (fun x y => y = min (x * b.factor) b.maxSeconds)
      (retryGo impl b remaining made next).delaysSeconds := by
  intro remaining
  induction remaining with
  | zero =>
    intro made next
    exact ⟨Or.inl rfl, List.chain'_nil⟩
  | succ rem ih =>
    intro made next
    cases he : impl (made + 1) with
    | none =>
      rw [retryGo_success_eq impl b rem made next he]
      exact ⟨Or.inl rfl, List.chain'_nil⟩
    | some e =>
      by_cases hrem : rem = 0
      · subst hrem
        rw [retryGo_last_fail_eq impl b made next e he]
        exact ⟨Or.inl rfl, List.chain'_nil⟩
      · have hds : (retryGo impl b (rem + 1) made next).delaysSeconds =
            next :: (retryGo impl b rem (made + 1)
              (min (next * b.factor) b.maxSeconds)).delaysSeconds := by
          rw [retryGo_fail_step_eq impl b rem made next e he hrem]
        have ihr := ih (made + 1) (min (next * b.factor) b.maxSeconds)
        rw [hds]
        refine ⟨Or.inr rfl, List.chain'_cons'.mpr ⟨?_, ihr.2⟩⟩
        intro y hy
        rcases ihr.1 with hnil | hhead
        · rw [hnil] at hy; simp at hy
        · rw [hhead] at hy
          simp at hy
          exact hy.symm

/-- The two retry loops (with and without backoff) agree on invocation
count and result, for every backoff (the sleeps influence timing only). -/
theorem retryGo_agrees (impl : Nat → Option String) (b : Backoff) :
    ∀ remaining made next,
    retryNoBackoffGo impl remaining made =
      ((retryGo impl b remaining made next).invocations,
       (retryGo impl b remaining made next).result) := by
  intro remaining
  induction remaining with
  | zero => intro made next; simp [retryNoBackoffGo, retryGo]
  | succ rem ih =>
    intro made next
    cases he : impl (made + 1) with
    | none =>
      rw [retryGo_success_eq impl b rem made next he]
      simp [retryNoBackoffGo, he]
    | some e =>
      by_cases hrem : rem = 0
      · subst hrem
        rw [retryGo_last_fail_eq impl b made next e he]
        simp [retryNoBackoffGo, he]
      · rw [retryGo_fail_step_eq impl b rem made next e he hrem]
        simp only [retryNoBackoffGo, he, if_neg hrem]
        exact ih (made + 1) (min (next * b.factor) b.maxSeconds)

/-- C5: Constructing a Retry with `maxAttempts ≤ 0` throws the
invalid-argument error synchronously at construction time (so no such
instance exists to run); for `maxAttempts ≥ 1`, a first success on
attempt `k ≤ maxAttempts` gives exactly `k` invocations and resolution,
and failure on every attempt gives exactly `maxAttempts` invocations and
rejection with the final attempt's failure re-raised verbatim. -/
theorem claim_C5_retry_construction_and_attempts :
    (∀ (impl : Nat → Option String) (m : Int) (bo : Backoff),
      mkRetry impl m bo = Except.error "maxAttempts must be positive" ↔ m ≤ 0) ∧
    (∀ (impl : Nat → Option String) (m : Int) (bo : Backoff) (k : Nat),
      1 ≤ k → (k : Int) ≤ m →
      (∀ j, 1 ≤ j → j < k → (impl j).isSome) → impl k = none →
      (retryRun impl m bo).invocations = k ∧ (retryRun impl m bo).result = none) ∧
    (∀ (impl : Nat → Option String) (m : Int) (bo : Backoff),
      1 ≤ m → (∀ j : Nat, 1 ≤ j → (j : Int) ≤ m → (impl j).isSome) →
      (retryRun impl m bo).invocations = m.toNat ∧
      (retryRun impl m bo).result = impl m.toNat ∧ (impl m.toNat).isSome) := by
  refine ⟨?_, ?_, ?_⟩
  · intro impl m bo
    by_cases h : m < 1 <;> simp [mkRetry, h] <;> omega
  · intro impl m bo k hk1 hkm hfail hsucc
    have := retryGo_succeeds impl bo k m.toNat 0 bo.baseSeconds hk1 (by omega)
      (fun j hj hj2 => hfail j (by omega) (by omega))
      (by rw [Nat.zero_add]; exact hsucc)
    rw [Nat.zero_add] at this
    exact this
  · intro impl m bo hm hfail
    have := retryGo_all_fail impl bo m.toNat 0 bo.baseSeconds (by omega)
      (fun j hj hj2 => hfail j (by omega) (by omega))
    rw [Nat.zero_add] at this
    exact ⟨this.1, this.2, hfail m.toNat (by omega) (by omega)⟩

/-- Witness for C5: the runnable succeeding on attempt 3 with
`maxAttempts = 5` is invoked exactly 3 times and resolves. -/
theorem claim_C5_witness :
    (retryRun succeedOnThird 5 NO_BACKOFF).invocations = 3 ∧
    (retryRun succeedOnThird 5 NO_BACKOFF).result = none :=
  claim_C5_retry_construction_and_attempts.2.1 succeedOnThird 5 NO_BACKOFF 3
    (by norm_num) (by norm_num)
    (fun j h1 h2 => by
      simp only [succeedOnThird, if_pos (show j < 3 by omega)]
      rfl)
    (by norm_num [succeedOnThird])

/-- C6: within one `run()`, the sleep before the first retry is
`baseSeconds` and each later sleep is `min (previous * factor)
maxSeconds`; on the spec's example (base 50 ms, factor 2, cap 200 ms,
five failing attempts) the sleeps are 50, 100, 200, 200 ms. -/
theorem claim_C6_backoff_delay_recurrence :
    (∀ (impl : Nat → Option String) (m : Int) (bo : Backoff),
      ((retryRun impl m bo).delaysSeconds = [] ∨
        (retryRun impl m bo).delaysSeconds.head? = some bo.baseSeconds) ∧
      List.Chain' (fun x y => y = min (x * bo.factor) bo.maxSeconds)
        (retryRun impl m bo).delaysSeconds) ∧
    (retryRun failAll 5 exampleBackoff).delaysSeconds =
      [1/20, 1/10, 1/5, 1/5] := by
  refine ⟨fun impl m bo => retryGo_delay_chain impl bo m.toNat 0 bo.baseSeconds, ?_⟩
  norm_num [retryRun, retryGo, failAll, exampleBackoff, min_def]

/-- Witness for C6: the delay chain at a concrete run. -/
theorem claim_C6_witness :
    List.Chain' (fun x y => y = min (x * exampleBackoff.factor) exampleBackoff.maxSeconds)
      (retryRun failAll 5 exampleBackoff).delaysSeconds :=
  (claim_C6_backoff_delay_recurrence.1 failAll 5 exampleBackoff).2

/-- C9: when `baseSeconds > maxSeconds` and the first attempt fails
(with at least two attempts permitted), the first sleep is the uncapped
`baseSeconds`: the cap is applied only from the second delay on. -/
theorem claim_C9_first_delay_uncapped :
    ∀ (impl : Nat → Option String) (m : Int) (bo : Backoff),
      bo.maxSeconds < bo.baseSeconds → (impl 1).isSome → 2 ≤ m →
      (retryRun impl m bo).delaysSeconds.head? = some bo.baseSeconds := by
  intro impl m bo _ h1 hm
  obtain ⟨rem, hrem⟩ : ∃ rem, m.toNat = rem + 2 := ⟨m.toNat - 2, by omega⟩
  obtain ⟨e, he⟩ := Option.isSome_iff_exists.mp h1
  unfold retryRun
  rw [hrem, retryGo_fail_step_eq impl bo (rem + 1) 0 bo.baseSeconds e
    (by simpa using he) (by omega)]
  rfl

/-- Witness for C9: base 2 s, cap 1 s — the first sleep is 2 s. -/
theorem claim_C9_witness :
    (retryRun failAll 2 ⟨2, 1, 1⟩).delaysSeconds.head? = some (2 : Rat) :=
  claim_C9_first_delay_uncapped failAll 2 ⟨2, 1, 1⟩ (by norm_num) rfl (by norm_num)

/-- C10: for every wrapped runnable and every `maxAttempts`, the retry
implementation without backoff and the one with backoff configured with
`NO_BACKOFF` (zero delay) make the same number of invocations and settle
with the same result. -/
theorem claim_C10_no_backoff_refinement :
    ∀ (impl : Nat → Option String) (m : Int),
      retryNoBackoffRun impl m =
        ((retryRun impl m NO_BACKOFF).invocations,
         (retryRun impl m NO_BACKOFF).result) :=
  fun impl m => retryGo_agrees impl NO_BACKOFF m.toNat 0 NO_BACKOFF.baseSeconds

/-- C7: if the main runnable succeeds the handler never runs and the
composite succeeds; if it fails the handler runs exactly once, after
main; a succeeding handler leaves the original failure as the composite
failure, a failing handler replaces it with the handler's failure. -/
theorem claim_C7_onerror_semantics :
    ∀ main handler : Option String,
      (main = none → onErrorRun main handler = ([NotifyEvent.ranMain], none)) ∧
      (∀ e, main = some e →
        (onErrorRun main handler).1 = [NotifyEvent.ranMain, NotifyEvent.ranHandler] ∧
        (handler = none → (onErrorRun main handler).2 = some e) ∧
        (∀ h, handler = some h → (onErrorRun main handler).2 = some h)) := by
  intro main handler
  constructor
  · rintro rfl
    cases handler <;> rfl
  · rintro e rfl
    cases handler with
    | none => exact ⟨rfl, fun _ => rfl, fun h hh => by simp at hh⟩
    | some hv =>
      exact ⟨rfl, fun hh => by simp at hh, fun h hh => by
        injection hh with h1; subst h1; rfl⟩

/-- Witness for C7: failing main and failing handler — the composite
rejects with the handler's failure. -/
theorem claim_C7_witness :
    (onErrorRun (some "boom") (some "handlerfail")).2 = some "handlerfail" :=
  ((claim_C7_onerror_semantics (some "boom") (some "handlerfail")).2 "boom" rfl).2.2
    "handlerfail" rfl

/-- C8: `withBackoff` returns a new `Retry` with the same wrapped
runnable, the same `maxAttempts` and the given backoff (the receiver,
whose fields are all `readonly`, is not mutated). -/
theorem claim_C8_withBackoff_new_instance :
    ∀ (r : Retry) (bo : Backoff), 1 ≤ r.maxAttempts →
      withBackoff r bo = Except.ok ⟨r.impl, r.maxAttempts, bo⟩ := by
  intro r bo h
  simp [withBackoff, mkRetry, show ¬r.maxAttempts < 1 by omega]

/-- Witness for C8 at a concrete retry instance. -/
theorem claim_C8_witness :
    withBackoff ⟨failAll, 3, NO_BACKOFF⟩ exampleBackoff =
      Except.ok ⟨failAll, 3, exampleBackoff⟩ :=
  claim_C8_withBackoff_new_instance ⟨failAll, 3, NO_BACKOFF⟩ exampleBackoff
    (by norm_num)

end Brigadier

namespace Brigadier

/-! ### Lemmas about item lookup and status updates. -/

theorem findItem_mem {items : List QueuedRunnable} {id : String}
    {it : QueuedRunnable} (h : findItem items id = some it) :
    it ∈ items ∧ it.id = id := by
  unfold findItem at h
  refine ⟨List.mem_of_find?_eq_some h, ?_⟩
  simpa using List.find?_some h

theorem findItem_of_mem {items : List QueuedRunnable}
    (hnd : (items.map QueuedRunnable.id).Nodup) {it : QueuedRunnable}
    (hmem : it ∈ items) : findItem items it.id = some it := by
  induction items with
  | nil => simp at hmem
  | cons jt rest ih =>
    rw [List.map_cons, List.nodup_cons] at hnd
    rcases List.mem_cons.mp hmem with rfl | hmem2
    · unfold findItem
      rw [List.find?_cons_of_pos _ (by simp)]
    · have hne : jt.id ≠ it.id := by
        intro he
        exact hnd.1 (he ▸ List.mem_map_of_mem QueuedRunnable.id hmem2)
      unfold findItem
      rw [List.find?_cons_of_neg _ (by simp [hne])]
      exact ih hnd.2 hmem2

/-- The conditional update written by `setStatus` does not change ids. -/
theorem setStatus_entry_id (jt : QueuedRunnable) (k : String) (st : Status) :
    (if jt.id == k then { jt with status := st } else jt).id = jt.id := by
  split <;> rfl

theorem statusOf_setStatus (items : List QueuedRunnable) (k : String)
    (st : Status) (id : String) :
    statusOf (setStatus items k st) id =
      if id = k then (statusOf items id).map (fun _ => st)
      else statusOf items id := by
  induction items with
  | nil =>
    by_cases h : id = k <;> simp [statusOf, setStatus, findItem, h]
  | cons jt rest ih =>
    by_cases hid : jt.id = id
    · subst hid
      unfold statusOf findItem setStatus
      simp only [List.map_cons]
      rw [List.find?_cons_of_pos _ (by rw [setStatus_entry_id]; simp),
        List.find?_cons_of_pos _ (by simp)]
      by_cases hk : jt.id = k
      · subst hk
        rw [if_pos (beq_self_eq_true jt.id), if_pos rfl]
        rfl
      · rw [if_neg (by simp [hk]), if_neg hk]
    · unfold statusOf findItem setStatus at *
      simp only [List.map_cons]
      rw [List.find?_cons_of_neg _ (by rw [setStatus_entry_id]; simp [hid]),
        List.find?_cons_of_neg _ (by simp [hid])]
      exact ih

theorem statusOf_startAll (rs : List QueuedRunnable)
    (items : List QueuedRunnable) (id : String) :
    statusOf (startAll items rs) id =
      if id ∈ rs.map (fun r => r.id)
      then (statusOf items id).map (fun _ => Status.InProgress)
      else statusOf items id := by
  induction rs generalizing items with
  | nil => simp [startAll]
  | cons r rs ih =>
    have hstep : startAll items (r :: rs) =
        startAll (setStatus items r.id Status.InProgress) rs := rfl
    rw [hstep, ih, statusOf_setStatus]
    by_cases h1 : id = r.id <;> by_cases h2 : id ∈ rs.map (fun r => r.id)
    · rw [if_pos h2, if_pos h1, if_pos (by simp [h1, h2]), Option.map_map]
      rfl
    · rw [if_neg h2, if_pos h1, if_pos (by simp [h1])]
    · rw [if_pos h2, if_neg h1, if_pos (by simp [h2])]
    · rw [if_neg h2, if_neg h1, if_neg (by simp [h1, h2])]

theorem setStatus_ids (items : List QueuedRunnable) (k : String) (st : Status) :
    (setStatus items k st).map QueuedRunnable.id = items.map QueuedRunnable.id := by
  unfold setStatus
  induction items with
  | nil => rfl
  | cons jt rest ih =>
    simp only [List.map_cons, ih]
    rw [setStatus_entry_id]

theorem startAll_ids (rs : List QueuedRunnable) (items : List QueuedRunnable) :
    (startAll items rs).map QueuedRunnable.id = items.map QueuedRunnable.id := by
  induction rs generalizing items with
  | nil => rfl
  | cons r rs ih =>
    rw [show startAll items (r :: rs) =
      startAll (setStatus items r.id Status.InProgress) rs from rfl, ih, setStatus_ids]

theorem mem_readyItems {items : List QueuedRunnable} {r : QueuedRunnable} :
    r ∈ readyItems items ↔ r ∈ items ∧ isReady items r = true := by
  simp [readyItems, List.mem_filter]

theorem racedId_mem (ch : List String → Nat) (s : SchedState)
    (h : raceList s ≠ []) : racedId ch s ∈ raceList s := by
  unfold racedId
  have hlen : 0 < (raceList s).length := List.length_pos.mpr h
  have hm : ch (raceList s) % (raceList s).length < (raceList s).length :=
    Nat.mod_lt _ hlen
  rw [List.getD_eq_getElem?_getD, List.getElem?_eq_getElem hm]
  exact List.getElem_mem hm

/-! ### The four branches of a scheduler iteration. -/

theorem stepOnce_done {o : String → Option String} {ch : List String → Nat}
    {s : SchedState} (h : allDone s.items = true) :
    stepOnce o ch s = (some RunOutcome.success, s) := by
  simp [stepOnce, h]

theorem stepOnce_hang {o : String → Option String} {ch : List String → Nat}
    {s : SchedState} (h : allDone s.items = false) (hr : raceList s = []) :
    stepOnce o ch s = (some RunOutcome.raceHang,
      ⟨startAll s.items (readyItems s.items), [], s.started ++ readyIds s⟩) := by
  simp [stepOnce, h, hr]

theorem stepOnce_fail {o : String → Option String} {ch : List String → Nat}
    {s : SchedState} {e : String} (h : allDone s.items = false)
    (hr : raceList s ≠ []) (he : o (racedId ch s) = some e) :
    stepOnce o ch s = (some (RunOutcome.itemFailed (racedId ch s ++ " failed")),
      ⟨setStatus (startAll s.items (readyItems s.items)) (racedId ch s) Status.Failed,
       (raceList s).filter (fun i => i != racedId ch s),
       s.started ++ readyIds s⟩) := by
  simp [stepOnce, h, hr, he]

theorem stepOnce_ok {o : String → Option String} {ch : List String → Nat}
    {s : SchedState} (h : allDone s.items = false)
    (hr : raceList s ≠ []) (he : o (racedId ch s) = none) :
    stepOnce o ch s = (none,
      ⟨setStatus (startAll s.items (readyItems s.items)) (racedId ch s) Status.Completed,
       (raceList s).filter (fun i => i != racedId ch s),
       s.started ++ readyIds s⟩) := by
  simp [stepOnce, h, hr, he]

/-! ### The readiness invariant of the scheduler. -/

/-- If one scheduler iteration moves item `id` out of `NotStarted`, the
item was ready at the start of the iteration: every id in its
`dependsOn` named an item whose status was `Completed`. -/
theorem stepOnce_start_requires_ready
    (o : String → Option String) (ch : List String → Nat) (s : SchedState)
    (id : String) (hwf : WFState s)
    (h1 : statusOf s.items id = some Status.NotStarted)
    (h2 : statusOf (stepOnce o ch s).2.items id ≠ some Status.NotStarted) :
    ∃ it, findItem s.items id = some it ∧
      areDependenciesSatisfied s.items it = true := by
  cases hd : allDone s.items with
  | true =>
    rw [stepOnce_done hd] at h2
    exact absurd h1 h2
  | false =>
    by_cases hr : id ∈ (readyItems s.items).map (fun r => r.id)
    · obtain ⟨r, hrmem, hrid⟩ := List.mem_map.mp hr
      have hready := mem_readyItems.mp hrmem
      have hfind : findItem s.items id = some r := by
        rw [← hrid]; exact findItem_of_mem hwf.1 hready.1
      refine ⟨r, hfind, ?_⟩
      have hrdy := hready.2
      simp only [isReady, Bool.and_eq_true] at hrdy
      exact hrdy.2
    · exfalso
      apply h2
      by_cases hrl : raceList s = []
      · rw [stepOnce_hang hd hrl]
        show statusOf (startAll s.items (readyItems s.items)) id =
          some Status.NotStarted
        rw [statusOf_startAll, if_neg hr, h1]
      · have hfid : racedId ch s ≠ id := by
          intro he
          have hm := racedId_mem ch s hrl
          unfold raceList at hm
          rcases List.mem_append.mp hm with hin | hin
          · have hip := hwf.2 _ hin
            rw [he] at hip
            exact absurd (hip.symm.trans h1) (by simp)
          · unfold readyIds at hin
            rw [he] at hin
            exact hr hin
        cases ho : o (racedId ch s) with
        | some e =>
          rw [stepOnce_fail hd hrl ho]
          show statusOf (setStatus (startAll s.items (readyItems s.items))
            (racedId ch s) Status.Failed) id = some Status.NotStarted
          rw [statusOf_setStatus, if_neg (fun hh => hfid hh.symm),
            statusOf_startAll, if_neg hr, h1]
        | none =>
          rw [stepOnce_ok hd hrl ho]
          show statusOf (setStatus (startAll s.items (readyItems s.items))
            (racedId ch s) Status.Completed) id = some Status.NotStarted
          rw [statusOf_setStatus, if_neg (fun hh => hfid hh.symm),
            statusOf_startAll, if_neg hr, h1]

/-- The state after a race settles is consistent again. -/
theorem WF_after_race (s : SchedState) (hwf : WFState s) (fid : String)
    (st' : Status) (started' : List String) :
    WFState ⟨setStatus (startAll s.items (readyItems s.items)) fid st',
             (raceList s).filter (fun i => i != fid), started'⟩ := by
  constructor
  · show ((setStatus (startAll s.items (readyItems s.items)) fid st').map
      QueuedRunnable.id).Nodup
    rw [setStatus_ids, startAll_ids]; exact hwf.1
  · intro id hin
    have hmem := List.mem_filter.mp hin
    have hne : id ≠ fid := by simpa using hmem.2
    show statusOf (setStatus (startAll s.items (readyItems s.items)) fid st') id =
      some Status.InProgress
    rw [statusOf_setStatus, if_neg hne, statusOf_startAll]
    rcases List.mem_append.mp hmem.1 with hin2 | hin2
    · have hip := hwf.2 _ hin2
      by_cases hr : id ∈ (readyItems s.items).map (fun r => r.id)
      · exfalso
        obtain ⟨r, hrmem, hrid⟩ := List.mem_map.mp hr
        have hready := mem_readyItems.mp hrmem
        have hfind : findItem s.items id = some r := by
          rw [← hrid]; exact findItem_of_mem hwf.1 hready.1
        have hst : statusOf s.items id = some r.status := by
          unfold statusOf; rw [hfind]; rfl
        have hns : r.status = Status.NotStarted := by
          have hrdy := hready.2
          simp only [isReady, Bool.and_eq_true] at hrdy
          simpa using hrdy.1
        rw [hns] at hst
        exact absurd (hst.symm.trans hip) (by simp)
      · rw [if_neg hr]; exact hip
    · have hr : id ∈ (readyItems s.items).map (fun r => r.id) := hin2
      rw [if_pos hr]
      obtain ⟨r, hrmem, hrid⟩ := List.mem_map.mp hr
      have hfind : findItem s.items id = some r := by
        rw [← hrid]
        exact findItem_of_mem hwf.1 (mem_readyItems.mp hrmem).1
      unfold statusOf
      rw [hfind]
      rfl

/-- Every scheduler iteration preserves consistency. -/
theorem stepOnce_WF (o : String → Option String) (ch : List String → Nat)
    (s : SchedState) (hwf : WFState s) : WFState (stepOnce o ch s).2 := by
  cases hd : allDone s.items with
  | true => rw [stepOnce_done hd]; exact hwf
  | false =>
    by_cases hrl : raceList s = []
    · rw [stepOnce_hang hd hrl]
      refine ⟨?_, ?_⟩
      · show ((startAll s.items (readyItems s.items)).map QueuedRunnable.id).Nodup
        rw [startAll_ids]; exact hwf.1
      · intro id hin
        simp at hin
    · cases ho : o (racedId ch s) with
      | some e => rw [stepOnce_fail hd hrl ho]; exact WF_after_race s hwf _ _ _
      | none => rw [stepOnce_ok hd hrl ho]; exact WF_after_race s hwf _ _ _

/-! ### What a graph failure message contains. -/

end Brigadier

namespace Brigadier

/-! ### The reachability pre-check on cyclic graphs.

`isReachable` writes an item's cache entry only after `every` over its
dependencies returns, so on a dependency cycle nothing on the cycle is
ever cached and the recursion never bottoms out: no recursion depth
(`fuel`) suffices. -/

/-- An item that depends (only) on its own id keeps calling
`isReachable` on itself with an unchanged cache: the computation exceeds
every recursion depth. -/
theorem isReachable_selfloop_none (items : List QueuedRunnable)
    (it : QueuedRunnable) (hfind : findItem items it.id = some it)
    (hdep : it.dependsOn = [it.id]) :
    ∀ fuel c, cacheGet c it.id = none →
      isReachable items fuel (some it) c = none := by
  intro fuel
  induction fuel with
  | zero => intro c _; simp [isReachable]
  | succ fuel ih =>
    intro c hc
    rw [isReachable]
    rw [hdep]
    simp only [List.cons_ne_self]
    rw [if_neg (by simp), hc]
    have hinner : isReachable items fuel (some it) c = none := by
      cases fuel with
      | zero => simp [isReachable]
      | succ f => exact ih c hc
    rw [depsEvery, hfind, hinner]

/-- If the reachability recursion on the first item never completes,
`run()` never completes. -/
theorem runGraph_none_of_head_diverges (items : List QueuedRunnable)
    (it : QueuedRunnable) (rest : List QueuedRunnable)
    (hitems : items = it :: rest)
    (hdiv : ∀ fuel, isReachable items fuel (some it) [] = none) :
    runNeverCompletes items := by
  intro o ch rf lf
  have haux : allReachableAux items rf items [] = none := by
    rw [hitems, allReachableAux]
    · rw [← hitems, hdiv rf]
  unfold runGraph allReachable
  rw [haux]
  rfl

theorem isReachable_zero (items : List QueuedRunnable)
    (x : Option QueuedRunnable) (c : Cache) :
    isReachable items 0 x c = none := by
  simp [isReachable]

theorem isReachable_missing (items : List QueuedRunnable) (f : Nat) (c : Cache) :
    isReachable items (f + 1) none c = some (false, c) := by
  simp [isReachable]

theorem cacheGet_cacheSet (c : Cache) (k k' : String) (v : Bool) :
    cacheGet (cacheSet c k v) k' = if k' = k then some v else cacheGet c k' := by
  by_cases h : k' = k
  · subst h
    unfold cacheGet cacheSet
    rw [List.find?_cons_of_pos _ (by simp), if_pos rfl]
    rfl
  · unfold cacheGet cacheSet
    rw [List.find?_cons_of_neg _ (by simp; exact fun hh => h hh.symm), if_neg h]

/-- On graphs whose dependency relation (restricted to existing ids)
admits a strictly decreasing rank, the memoized reachability recursion
completes once the recursion depth exceeds the rank. -/
theorem reach_terminates (items : List QueuedRunnable) (rank : String → Nat)
    (H : ∀ it ∈ items, ∀ d ∈ it.dependsOn, ∀ jt, findItem items d = some jt →
      rank jt.id < rank it.id) :
    ∀ fuel : Nat,
      (∀ it ∈ items, ∀ c : Cache, rank it.id + 1 < fuel →
        (isReachable items fuel (some it) c).isSome) ∧
      (∀ ds : List String, ∀ c : Cache, 1 ≤ fuel →
        (∀ d ∈ ds, ∀ jt, findItem items d = some jt → rank jt.id + 1 < fuel) →
        (depsEvery items fuel ds c).isSome) := by
  intro fuel
  induction fuel using Nat.strong_induction_on with
  | _ fuel IH =>
    have hP : ∀ it ∈ items, ∀ c : Cache, rank it.id + 1 < fuel →
        (isReachable items fuel (some it) c).isSome := by
      intro it hmem c hf
      obtain ⟨f, rfl⟩ : ∃ f, fuel = f + 1 := ⟨fuel - 1, by omega⟩
      rw [isReachable]
      by_cases hdep : it.dependsOn = []
      · rw [if_pos hdep]; rfl
      · rw [if_neg hdep]
        cases hc : cacheGet c it.id with
        | some b => rfl
        | none =>
          have hq : (depsEvery items f it.dependsOn c).isSome := by
            refine (IH f (by omega)).2 it.dependsOn c (by omega) ?_
            intro d hd jt hjt
            have := H it hmem d hd jt hjt
            omega
          obtain ⟨⟨r, c2⟩, hrc⟩ := Option.isSome_iff_exists.mp hq
          rw [hrc]
          rfl
    refine ⟨hP, ?_⟩
    intro ds
    induction ds with
    | nil =>
      intro c _ _
      rw [depsEvery]
      rfl
    | cons d rest ihds =>
      intro c h1 hds
      rw [depsEvery]
      cases hfind : findItem items d with
      | none =>
        obtain ⟨f, rfl⟩ : ∃ f, fuel = f + 1 := ⟨fuel - 1, by omega⟩
        rw [isReachable_missing]
        rfl
      | some jt =>
        have hsome := hP jt (findItem_mem hfind).1 c
          (hds d (List.mem_cons_self d rest) jt hfind)
        obtain ⟨⟨r, c2⟩, hrc⟩ := Option.isSome_iff_exists.mp hsome
        rw [hrc]
        cases r with
        | false => rfl
        | true =>
          exact ihds c2 h1 (fun e he jt2 hjt2 =>
            hds e (List.mem_cons_of_mem d he) jt2 hjt2)

/-- Running `every` over a dependency list containing a missing id yields
`false` whenever it completes. -/
theorem depsEvery_missing (items : List QueuedRunnable) (dMiss : String)
    (hmiss : findItem items dMiss = none) :
    ∀ ds, dMiss ∈ ds → ∀ (fuel : Nat) (c : Cache) (r : Bool) (c' : Cache),
      depsEvery items fuel ds c = some (r, c') → r = false := by
  intro ds
  induction ds with
  | nil => intro h; simp at h
  | cons d rest ih =>
    intro hmem fuel c r c' h
    rw [depsEvery] at h
    rcases List.mem_cons.mp hmem with rfl | hmem2
    · rw [hmiss] at h
      cases fuel with
      | zero => rw [isReachable_zero] at h; exact absurd h (by simp)
      | succ f =>
        rw [isReachable_missing] at h
        obtain ⟨h1, _⟩ := Prod.mk.injEq .. ▸ Option.some.inj h
        exact h1.symm
    · cases hir : isReachable items fuel (findItem items d) c with
      | none => rw [hir] at h; exact absurd h (by simp)
      | some rc =>
        obtain ⟨r1, c2⟩ := rc
        rw [hir] at h
        cases r1 with
        | false =>
          obtain ⟨h1, _⟩ := Prod.mk.injEq .. ▸ Option.some.inj h
          exact h1.symm
        | true => exact ih hmem2 fuel c2 r c' h

/-- Throughout the pre-check, the cache never records the item with the
missing dependency as reachable, and computing that item yields
`false`. -/
theorem reach_badfree (items : List QueuedRunnable) (bad : QueuedRunnable)
    (dMiss : String) (hnd : (items.map QueuedRunnable.id).Nodup)
    (hbadmem : bad ∈ items) (hdmem : dMiss ∈ bad.dependsOn)
    (hmiss : findItem items dMiss = none) :
    ∀ fuel : Nat,
      (∀ it ∈ items, ∀ (c : Cache) (r : Bool) (c' : Cache), BadFree bad.id c →
        isReachable items fuel (some it) c = some (r, c') →
        BadFree bad.id c' ∧ (it = bad → r = false)) ∧
      (∀ (ds : List String) (c : Cache) (r : Bool) (c' : Cache), BadFree bad.id c →
        depsEvery items fuel ds c = some (r, c') → BadFree bad.id c') := by
  have hinj := List.inj_on_of_nodup_map hnd
  intro fuel
  induction fuel using Nat.strong_induction_on with
  | _ fuel IH =>
    have hA : ∀ it ∈ items, ∀ (c : Cache) (r : Bool) (c' : Cache), BadFree bad.id c →
        isReachable items fuel (some it) c = some (r, c') →
        BadFree bad.id c' ∧ (it = bad → r = false) := by
      intro it hmem c r c' hbf h
      cases fuel with
      | zero => rw [isReachable_zero] at h; exact absurd h (by simp)
      | succ f =>
        rw [isReachable] at h
        by_cases hdep : it.dependsOn = []
        · rw [if_pos hdep] at h
          obtain ⟨_, h2⟩ := Prod.mk.injEq .. ▸ Option.some.inj h
          have hne_item : it ≠ bad := by
            intro he
            rw [← he, hdep] at hdmem
            exact absurd hdmem (by simp)
          have hne_id : it.id ≠ bad.id := fun he => hne_item (hinj hmem hbadmem he)
          refine ⟨?_, fun he => absurd he hne_item⟩
          unfold BadFree
          rw [← h2, cacheGet_cacheSet, if_neg (fun hh => hne_id hh.symm)]
          exact hbf
        · rw [if_neg hdep] at h
          cases hc : cacheGet c it.id with
          | some b =>
            rw [hc] at h
            obtain ⟨h1, h2⟩ := Prod.mk.injEq .. ▸ Option.some.inj h
            refine ⟨h2 ▸ hbf, ?_⟩
            intro hitbad
            rw [hitbad] at hc
            cases b with
            | false => exact h1.symm
            | true => exact absurd hc hbf
          | none =>
            rw [hc] at h
            cases hde : depsEvery items f it.dependsOn c with
            | none => rw [hde] at h; exact absurd h (by simp)
            | some rc =>
              obtain ⟨r1, c2⟩ := rc
              rw [hde] at h
              obtain ⟨h1, h2⟩ := Prod.mk.injEq .. ▸ Option.some.inj h
              have hbf2 : BadFree bad.id c2 :=
                (IH f (by omega)).2 it.dependsOn c r1 c2 hbf hde
              by_cases hit : it = bad
              · have hr1 : r1 = false :=
                  depsEvery_missing items dMiss hmiss it.dependsOn
                    (by rw [hit]; exact hdmem) f c r1 c2 hde
                refine ⟨?_, fun _ => by rw [← h1, hr1]⟩
                unfold BadFree
                rw [← h2, cacheGet_cacheSet]
                by_cases hbadid : bad.id = it.id
                · rw [if_pos hbadid, hr1]; simp
                · rw [if_neg hbadid]; exact hbf2
              · have hne_id : it.id ≠ bad.id := fun he => hit (hinj hmem hbadmem he)
                refine ⟨?_, fun he => absurd he hit⟩
                unfold BadFree
                rw [← h2, cacheGet_cacheSet, if_neg (fun hh => hne_id hh.symm)]
                exact hbf2
    refine ⟨hA, ?_⟩
    intro ds
    induction ds with
    | nil =>
      intro c r c' hbf h
      rw [depsEvery] at h
      obtain ⟨_, h2⟩ := Prod.mk.injEq .. ▸ Option.some.inj h
      exact h2 ▸ hbf
    | cons d rest ihds =>
      intro c r c' hbf h
      rw [depsEvery] at h
      cases hfind : findItem items d with
      | none =>
        rw [hfind] at h
        cases fuel with
        | zero => rw [isReachable_zero] at h; exact absurd h (by simp)
        | succ f =>
          rw [isReachable_missing] at h
          obtain ⟨_, h2⟩ := Prod.mk.injEq .. ▸ Option.some.inj h
          exact h2 ▸ hbf
      | some jt =>
        rw [hfind] at h
        cases hir : isReachable items fuel (some jt) c with
        | none => rw [hir] at h; exact absurd h (by simp)
        | some rc =>
          obtain ⟨r1, c2⟩ := rc
          rw [hir] at h
          have hbf2 := (hA jt (findItem_mem hfind).1 c r1 c2 hbf hir).1
          cases r1 with
          | false =>
            obtain ⟨_, h2⟩ := Prod.mk.injEq .. ▸ Option.some.inj h
            exact h2 ▸ hbf2
          | true => exact ihds c2 r c' hbf2 h

/-- With enough fuel (rank bound), the items loop of `allReachable`
completes. -/
theorem allReachableAux_isSome (items : List QueuedRunnable)
    (rank : String → Nat)
    (H : ∀ it ∈ items, ∀ d ∈ it.dependsOn, ∀ jt, findItem items d = some jt →
      rank jt.id < rank it.id)
    (fuel : Nat) (hf : ∀ it ∈ items, rank it.id + 1 < fuel) :
    ∀ l : List QueuedRunnable, (∀ it ∈ l, it ∈ items) → ∀ c : Cache,
      (allReachableAux items fuel l c).isSome := by
  intro l
  induction l with
  | nil => intro _ c; rw [allReachableAux]; rfl
  | cons it rest ih =>
    intro hsub c
    rw [allReachableAux]
    have hmem := hsub it (List.mem_cons_self it rest)
    have hs := (reach_terminates items rank H fuel).1 it hmem c (hf it hmem)
    obtain ⟨⟨r, c2⟩, hrc⟩ := Option.isSome_iff_exists.mp hs
    rw [hrc]
    cases r with
    | false => rfl
    | true => exact ih (fun jt hjt => hsub jt (List.mem_cons_of_mem it hjt)) c2

/-- When it completes, the items loop of `allReachable` yields `false`
if some processed item has a missing dependency id. -/
theorem allReachableAux_false (items : List QueuedRunnable)
    (bad : QueuedRunnable) (dMiss : String)
    (hnd : (items.map QueuedRunnable.id).Nodup) (hbadmem : bad ∈ items)
    (hdmem : dMiss ∈ bad.dependsOn) (hmiss : findItem items dMiss = none)
    (fuel : Nat) :
    ∀ l : List QueuedRunnable, bad ∈ l → (∀ it ∈ l, it ∈ items) →
      ∀ (c : Cache) (r : Bool) (c' : Cache), BadFree bad.id c →
        allReachableAux items fuel l c = some (r, c') → r = false := by
  intro l
  induction l with
  | nil => intro h; simp at h
  | cons it rest ih =>
    intro hbadl hsub c r c' hbf h
    rw [allReachableAux] at h
    cases hir : isReachable items fuel (some it) c with
    | none => rw [hir] at h; exact absurd h (by simp)
    | some rc =>
      obtain ⟨r1, c2⟩ := rc
      rw [hir] at h
      have hstep := (reach_badfree items bad dMiss hnd hbadmem hdmem hmiss fuel).1
        it (hsub it (List.mem_cons_self it rest)) c r1 c2 hbf hir
      by_cases hit : it = bad
      · have hr1 : r1 = false := hstep.2 hit
        subst hr1
        obtain ⟨h1, _⟩ := Prod.mk.injEq .. ▸ Option.some.inj h
        exact h1.symm
      · cases r1 with
        | false =>
          obtain ⟨h1, _⟩ := Prod.mk.injEq .. ▸ Option.some.inj h
          exact h1.symm
        | true =>
          have hbadrest : bad ∈ rest := by
            rcases List.mem_cons.mp hbadl with he | he
            · exact absurd he.symm hit
            · exact he
          exact ih hbadrest (fun jt hjt => hsub jt (List.mem_cons_of_mem it hjt))
            c2 r c' hstep.1 h

/-- C2 (amended): for every graph with unique item ids whose dependency
relation restricted to existing ids is acyclic (witnessed by a
decreasing rank) and in which some item's `dependsOn` references an id
that is no item's id, `run()` — given recursion depth beyond the rank
bound — rejects with the graph-invalid error before any item's runnable
is invoked (the returned state still has every item `NotStarted`,
nothing in flight and nothing started). Without the acyclicity proviso
the claim fails, see the counterexample. -/
theorem claim_C2_missing_dep_graph_invalid :
    ∀ (items : List QueuedRunnable) (rank : String → Nat)
      (bad : QueuedRunnable) (dMiss : String) (rf : Nat),
      (items.map QueuedRunnable.id).Nodup →
      bad ∈ items → dMiss ∈ bad.dependsOn → findItem items dMiss = none →
      (∀ it ∈ items, ∀ d ∈ it.dependsOn, ∀ jt, findItem items d = some jt →
        rank jt.id < rank it.id) →
      (∀ it ∈ items, rank it.id + 1 < rf) →
      ∀ (o : String → Option String) (ch : List String → Nat) (lf : Nat),
        runGraph o ch items rf lf =
          some (RunOutcome.graphInvalid, ⟨items, [], []⟩) := by
  intro items rank bad dMiss rf hnd hbadmem hdmem hmiss H hrf o ch lf
  have hsome := allReachableAux_isSome items rank H rf hrf items (fun _ h => h) []
  obtain ⟨⟨r, c'⟩, hrc⟩ := Option.isSome_iff_exists.mp hsome
  have hfalse := allReachableAux_false items bad dMiss hnd hbadmem hdmem hmiss rf
    items hbadmem (fun _ h => h) [] r c'
    (by unfold BadFree cacheGet; simp) hrc
  subst hfalse
  unfold runGraph allReachable
  rw [hrc]
  rfl

/-- Witness for C2 (amended): the one-item graph
`{ a: dependsOn("missing") }` is rejected as invalid with nothing
started. -/
theorem claim_C2_witness :
    runGraph (fun _ => none) firstChoose [mkItem "a" ["missing"]] 2 0 =
      some (RunOutcome.graphInvalid, ⟨[mkItem "a" ["missing"]], [], []⟩) :=
  claim_C2_missing_dep_graph_invalid [mkItem "a" ["missing"]] (fun _ => 0)
    (mkItem "a" ["missing"]) "missing" 2
    (by decide)
    (by simp)
    (by simp [mkItem])
    (by decide)
    (by
      intro it hit d hd jt hjt
      simp [mkItem] at hit
      subst hit
      simp [mkItem] at hd
      subst hd
      rw [show findItem [mkItem "a" ["missing"]] "missing" = none by decide] at hjt
      exact absurd hjt (by simp))
    (by intro it _; norm_num)
    (fun _ => none) firstChoose 0

/-- C1 (code bug): on a cyclic graph the reachability pre-check does not
terminate at any recursion depth — the memo cache is written only after
an item's dependency traversal completes, so cycle members are never
cached — and consequently `run()` never produces any outcome (in JS, the
recursion grows the stack without bound until the engine kills it). -/
theorem claim_C1_cycle_precheck_diverges :
    (∀ fuel, isReachable selfLoopItems fuel (some selfLoopItem) [] = none) ∧
    runNeverCompletes selfLoopItems := by
  have hdiv : ∀ fuel, isReachable selfLoopItems fuel (some selfLoopItem) [] = none :=
    fun fuel =>
      isReachable_selfloop_none selfLoopItems selfLoopItem (by decide) rfl fuel [] rfl
  exact ⟨hdiv, runGraph_none_of_head_diverges selfLoopItems selfLoopItem [] rfl hdiv⟩

/-- Counterexample to C2 as stated: this graph contains an item whose
`dependsOn` references an id that is no item's id, yet `run()` never
rejects with the graph-invalid error (it never completes at all): the
pre-check hits the cycle at `b` and recurses unboundedly. -/
theorem claim_C2_counterexample : runNeverCompletes cexC2Items :=
  runGraph_none_of_head_diverges cexC2Items (mkItem "b" ["b"]) [mkItem "a" ["missing"]]
    rfl
    (fun fuel =>
      isReachable_selfloop_none cexC2Items (mkItem "b" ["b"]) (by decide) rfl fuel []
        rfl)

/-- C3: an item is started (moved out of `NotStarted`) only when every
id in its `dependsOn` names a `Completed` item. Conjuncts: the initial
state of `run()` is consistent; every iteration preserves consistency;
in a consistent state an iteration starts an item only if it was ready;
and on the shared-failed-dependency graph
`{ a: fail, b: dependsOn("a"), c: dependsOn("a") }` the run fails with
only `a` ever started, under every race oracle. -/
theorem claim_C3_start_only_when_deps_completed :
    (∀ items : List QueuedRunnable, (items.map QueuedRunnable.id).Nodup →
      WFState ⟨items, [], []⟩) ∧
    (∀ (o : String → Option String) (ch : List String → Nat) (s : SchedState),
      WFState s → WFState (stepOnce o ch s).2) ∧
    (∀ (o : String → Option String) (ch : List String → Nat) (s : SchedState)
      (id : String), WFState s →
      statusOf s.items id = some Status.NotStarted →
      statusOf (stepOnce o ch s).2.items id ≠ some Status.NotStarted →
      ∃ it, findItem s.items id = some it ∧
        areDependenciesSatisfied s.items it = true) ∧
    (∀ ch : List String → Nat,
      runGraph failAOutcome ch sharedDepItems 2 1 =
        some (RunOutcome.itemFailed "a failed",
          ⟨[⟨"a", [], Status.Failed⟩, ⟨"b", ["a"], Status.NotStarted⟩,
            ⟨"c", ["a"], Status.NotStarted⟩], [], ["a"]⟩)) := by
  refine ⟨?_, stepOnce_WF, stepOnce_start_requires_ready, ?_⟩
  · intro items hnd
    exact ⟨hnd, by intro id h; simp at h⟩
  · intro ch
    have hreach : allReachable sharedDepItems 2 = some true := by
      simp [allReachable, allReachableAux, isReachable, depsEvery, sharedDepItems,
        mkItem, findItem, cacheGet, cacheSet, List.find?]
    unfold runGraph
    rw [hreach]
    unfold runLoop
    simp [stepOnce, allDone, sharedDepItems, mkItem, readyItems, isReady,
      areDependenciesSatisfied, findItem, List.find?, raceList, readyIds, racedId,
      Nat.mod_one, startAll, setStatus, failAOutcome, statusOf]

/-- Witness for C3: starting the lone item of `{ x: {} }` satisfies the
readiness obligation. -/
theorem claim_C3_witness :
    ∃ it, findItem [mkItem "x" []] "x" = some it ∧
      areDependenciesSatisfied [mkItem "x" []] it = true :=
  claim_C3_start_only_when_deps_completed.2.2.1 (fun _ => none) firstChoose
    ⟨[mkItem "x" []], [], []⟩ "x"
    ⟨by decide, by intro id h; simp at h⟩
    (by decide)
    (by decide)

end Brigadier

